import Mathlib

set_option maxRecDepth 100000

/-!
Shallow embedding of `src/gost3412.py` (GOST 34.12-2015 "Kuznechik"
128-bit block cipher, with this repository's modified substitution table).

Bytes are modelled as `Nat` values below 256; byte strings and blocks as
`List Nat`.  Every operation of the source is translated into a pure,
executable Lean function.
-/

namespace Gost3412

/-- Byte list predicate: a 16-byte cipher block with every entry a byte. -/
def isBlock (l : List Nat) : Prop := l.length = 16 ∧ ∀ v ∈ l, v < 256

/-- Source: `KEYSIZE = 32`. -/
def KEYSIZE : Nat := 32

/-- Source: the linear-transform multiplier constants `LC` (16 bytes). -/
def LC : List Nat :=
  [148, 32, 133, 16, 194, 192, 1, 251, 1, 192, 194, 16, 133, 32, 148, 1]

/-- Source: the substitution table `PI` (256 entries). -/
def PI : List Nat := [
  159, 22, 243, 168, 16, 239, 32, 153, 130, 191, 125, 220, 228, 81, 154, 143,
  10, 223, 175, 253, 195, 103, 188, 189, 198, 238, 222, 240, 185, 54, 99, 47,
  23, 172, 72, 53, 124, 24, 139, 67, 249, 161, 4, 149, 41, 186, 250, 132,
  133, 0, 44, 51, 57, 66, 234, 200, 2, 28, 212, 187, 117, 129, 193, 237,
  148, 226, 227, 242, 108, 76, 120, 146, 165, 119, 210, 169, 70, 213, 111, 21,
  33, 151, 174, 26, 182, 235, 199, 95, 89, 74, 90, 17, 34, 138, 192, 8,
  64, 141, 49, 155, 93, 39, 109, 65, 203, 206, 236, 255, 233, 104, 82, 83,
  163, 171, 25, 245, 118, 135, 216, 101, 27, 102, 183, 68, 29, 246, 142, 43,
  75, 19, 136, 80, 121, 116, 40, 181, 252, 5, 14, 42, 224, 115, 251, 209,
  218, 3, 58, 244, 127, 15, 112, 180, 6, 221, 97, 1, 140, 211, 229, 46,
  107, 122, 69, 254, 96, 110, 37, 184, 55, 7, 62, 123, 170, 232, 150, 147,
  92, 128, 114, 77, 71, 166, 167, 207, 173, 164, 126, 177, 78, 79, 247, 157,
  30, 196, 131, 225, 52, 219, 63, 156, 85, 137, 179, 241, 215, 87, 231, 214,
  50, 35, 208, 134, 202, 31, 105, 11, 60, 84, 12, 100, 88, 197, 205, 36,
  152, 144, 94, 18, 91, 178, 145, 106, 61, 217, 190, 86, 201, 48, 59, 13,
  248, 73, 160, 113, 9, 20, 158, 230, 56, 38, 204, 45, 194, 176, 98, 162]

/-- Source: `PIinv = bytearray(256); for x in range(256): PIinv[PI[x]] = x`.
The loop is translated as a fold that starts from 256 zero bytes and sets
position `PI[x]` to `x` for `x = 0..255`. -/
def PIinv : List Nat :=
  (List.range 256).foldl (fun acc x => acc.set (PI.getD x 0) x)
    (List.replicate 256 0)

/-- Shift-and-reduce step of the source function `gf`:
`if a & 0x80: a = (a << 1) ^ 0x1C3 else: a <<= 1`. -/
def xt (a : Nat) : Nat := if a &&& 0x80 ≠ 0 then (a <<< 1) ^^^ 0x1C3 else a <<< 1

/-- Loop body of the source function `gf`.  The Python `while b:` loop is
translated with an explicit fuel argument; `b` at least halves every
iteration (`b >>= 1`), so running the loop with `fuel = b` always reaches
`b = 0` before the fuel does, and the fuel-exhausted branch is dead.  The
update order matches the source: `c` is updated from the current `a` before
`a` itself is shifted and reduced. -/
def gfLoop : Nat → Nat → Nat → Nat → Nat
  | 0, _, _, c => c
  | fuel + 1, a, b, c =>
    if b = 0 then c
    else gfLoop fuel (xt a) (b >>> 1) (if b &&& 1 ≠ 0 then c ^^^ a else c)

/-- Source: `gf(a, b)`, carry-less multiplication in GF(2^8) with reduction
polynomial `0x1C3`. -/
def gf (a b : Nat) : Nat := gfLoop b a b 0

/-- Source: the precomputed table `GF` with `GF[x][y] = gf(x, y)` for all
`x, y` in `0..255`. -/
def GFtab : List (List Nat) :=
  (List.range 256).map (fun x => (List.range 256).map (fun y => gf x y))

/-- Bytewise XOR of two byte strings.  Modelled from the spec: the source
imports `strxor` from `utils.py`, which is not under `src/`; the spec uses
XOR only to combine equal-length blocks ("Field addition is bitwise XOR"),
where `zipWith` is exact.  On unequal lengths `zipWith` truncates to the
shorter operand, which is also what the upstream PyGOST `utils.strxor`
does. -/
def strxor (a b : List Nat) : List Nat := List.zipWith (fun x y => x ^^^ y) a b

/-- One iteration of the source loop in `L`: read `t = blk[15]`, then for
`i = 14..0` shift `blk[i]` into `blk[i+1]` while accumulating
`t ^= GF[blk[i]][LC[i]]`, and finally store `t` into `blk[0]`.  Each shifted
read sees the original byte (writes only touch higher indices), so one
iteration maps the 16-byte state to `t :: first 15 bytes`, with the XOR
accumulation written in the source's descending order.  The table lookup
`GF[x][y]` is written as `gf x y` (they agree; see `GFtab_getD`).  The
source raises an index error on states shorter than 16 bytes; that dead
branch is modelled by `[]`. -/
def lstep : List Nat → List Nat
  | [b0, b1, b2, b3, b4, b5, b6, b7, b8, b9, b10, b11, b12, b13, b14, b15] =>
    [b15 ^^^ gf b14 (LC.getD 14 0) ^^^ gf b13 (LC.getD 13 0) ^^^
       gf b12 (LC.getD 12 0) ^^^ gf b11 (LC.getD 11 0) ^^^
       gf b10 (LC.getD 10 0) ^^^ gf b9 (LC.getD 9 0) ^^^
       gf b8 (LC.getD 8 0) ^^^ gf b7 (LC.getD 7 0) ^^^
       gf b6 (LC.getD 6 0) ^^^ gf b5 (LC.getD 5 0) ^^^
       gf b4 (LC.getD 4 0) ^^^ gf b3 (LC.getD 3 0) ^^^
       gf b2 (LC.getD 2 0) ^^^ gf b1 (LC.getD 1 0) ^^^
       gf b0 (LC.getD 0 0),
     b0, b1, b2, b3, b4, b5, b6, b7, b8, b9, b10, b11, b12, b13, b14]
  | _ => []

/-- Source: `L(blk, rounds)` applies the shift-register iteration `rounds`
times (`for _ in range(rounds)`). -/
def Lrounds (rounds : Nat) (blk : List Nat) : List Nat := lstep^[rounds] blk

/-- Source: `L(blk)` with the default parameter `rounds=16`. -/
def L (blk : List Nat) : List Nat := Lrounds 16 blk

/-- One iteration of the source loop in `Linv`: read `t = blk[0]`, then for
`i = 0..14` shift `blk[i+1]` into `blk[i]` while accumulating
`t ^= GF[blk[i]][LC[i]]` over the freshly shifted byte (the old `blk[i+1]`),
and finally store `t` into `blk[15]`.  One iteration maps the 16-byte state
to `last 15 bytes ++ [t]`, with the accumulation in the source's ascending
order.  States shorter than 16 bytes would raise in the source and are
modelled by `[]`. -/
def linvstep : List Nat → List Nat
  | [b0, b1, b2, b3, b4, b5, b6, b7, b8, b9, b10, b11, b12, b13, b14, b15] =>
    [b1, b2, b3, b4, b5, b6, b7, b8, b9, b10, b11, b12, b13, b14, b15,
     b0 ^^^ gf b1 (LC.getD 0 0) ^^^ gf b2 (LC.getD 1 0) ^^^
       gf b3 (LC.getD 2 0) ^^^ gf b4 (LC.getD 3 0) ^^^
       gf b5 (LC.getD 4 0) ^^^ gf b6 (LC.getD 5 0) ^^^
       gf b7 (LC.getD 6 0) ^^^ gf b8 (LC.getD 7 0) ^^^
       gf b9 (LC.getD 8 0) ^^^ gf b10 (LC.getD 9 0) ^^^
       gf b11 (LC.getD 10 0) ^^^ gf b12 (LC.getD 11 0) ^^^
       gf b13 (LC.getD 12 0) ^^^ gf b14 (LC.getD 13 0) ^^^
       gf b15 (LC.getD 14 0)]
  | _ => []

/-- Source: `Linv(blk)` applies the inverse iteration 16 times. -/
def Linv (blk : List Nat) : List Nat := linvstep^[16] blk

/-- Source: the round-constant table `C`; for `x in range(1, 33)` the block
that is all zeros except `y[15] = x` is passed through `L` (with its default
16 rounds). -/
def Cconst : List (List Nat) :=
  (List.range 32).map (fun x => L ((List.replicate 16 0).set 15 (x + 1)))

/-- Source: `lp(blk) = L([PI[v] for v in blk])`. -/
def lp (blk : List Nat) : List Nat := L (blk.map (fun v => PI.getD v 0))

/-- One round of the key-schedule Feistel recurrence, the body of the inner
loop of `GOST3412Kuznechik.__init__`:
`k = lp(strxor(C[r], kr0)); kr0, kr1 = strxor(k, kr1), kr0` (with `r`
counted from 0, matching the source's `C[8 * i + j]`). -/
def kuzRound (kr : List Nat × List Nat) (r : Nat) : List Nat × List Nat :=
  (strxor (lp (strxor (Cconst.getD r []) kr.1)) kr.2, kr.1)

/-- Source: `GOST3412Kuznechik.__init__` key scheduling.  The halves
`kr0 = key[:16]` and `kr1 = key[16:]` seed `self.ks`; four groups of eight
Feistel rounds follow, and after each group the current pair is appended.
The accumulator carries `(ks, kr0, kr1)`. -/
def kuzKS (key : List Nat) : List (List Nat) :=
  (let kr0 := key.take 16
   let kr1 := key.drop 16
   (List.range 4).foldl
     (fun acc i =>
       let kr := (List.range 8).foldl (fun kr j => kuzRound kr (8 * i + j)) (acc.2.1, acc.2.2)
       (acc.1 ++ [kr.1, kr.2], kr.1, kr.2))
     ([kr0, kr1], kr0, kr1)).1

/-- Flat form of the spec's key-schedule recurrence: starting from the two
key halves, `n` applications of the Feistel round, round `r` (1-based)
using constant `C[r]`. -/
def feistelIter (key : List Nat) : Nat → List Nat × List Nat
  | 0 => (key.take 16, key.drop 16)
  | n + 1 => kuzRound (feistelIter key n) n

/-- Source: `GOST3412Kuznechik.encrypt`: nine rounds of
`blk = lp(strxor(self.ks[i], blk))` for `i = 0..8`, then a final whitening
`strxor(self.ks[9], blk)`. -/
def kuzEncrypt (ks : List (List Nat)) (blk : List Nat) : List Nat :=
  strxor (ks.getD 9 [])
    ((List.range 9).foldl (fun b i => lp (strxor (ks.getD i []) b)) blk)

/-- Source: `GOST3412Kuznechik.decrypt`: for `i = 9 down to 1`,
`blk = [PIinv[v] for v in Linv(strxor(self.ks[i], blk))]`, then a final
`strxor(self.ks[0], blk)`.  The literal list spells out `range(9, 0, -1)`. -/
def kuzDecrypt (ks : List (List Nat)) (blk : List Nat) : List Nat :=
  strxor (ks.getD 0 [])
    (([9, 8, 7, 6, 5, 4, 3, 2, 1] : List Nat).foldl
      (fun b i => (Linv (strxor (ks.getD i []) b)).map (fun v => PIinv.getD v 0)) blk)

/-! ### Generic helpers -/

lemma block16_cases (l : List Nat) (h : l.length = 16) :
    ∃ b0 b1 b2 b3 b4 b5 b6 b7 b8 b9 b10 b11 b12 b13 b14 b15,
      l = [b0, b1, b2, b3, b4, b5, b6, b7, b8, b9, b10, b11, b12, b13, b14, b15] := by
  obtain ⟨b0, l, rfl⟩ := l.exists_of_length_succ h; simp only [List.length_cons] at h
  obtain ⟨b1, l, rfl⟩ := l.exists_of_length_succ (show l.length = 14 + 1 by omega); simp only [List.length_cons] at h
  obtain ⟨b2, l, rfl⟩ := l.exists_of_length_succ (show l.length = 13 + 1 by omega); simp only [List.length_cons] at h
  obtain ⟨b3, l, rfl⟩ := l.exists_of_length_succ (show l.length = 12 + 1 by omega); simp only [List.length_cons] at h
  obtain ⟨b4, l, rfl⟩ := l.exists_of_length_succ (show l.length = 11 + 1 by omega); simp only [List.length_cons] at h
  obtain ⟨b5, l, rfl⟩ := l.exists_of_length_succ (show l.length = 10 + 1 by omega); simp only [List.length_cons] at h
  obtain ⟨b6, l, rfl⟩ := l.exists_of_length_succ (show l.length = 9 + 1 by omega); simp only [List.length_cons] at h
  obtain ⟨b7, l, rfl⟩ := l.exists_of_length_succ (show l.length = 8 + 1 by omega); simp only [List.length_cons] at h
  obtain ⟨b8, l, rfl⟩ := l.exists_of_length_succ (show l.length = 7 + 1 by omega); simp only [List.length_cons] at h
  obtain ⟨b9, l, rfl⟩ := l.exists_of_length_succ (show l.length = 6 + 1 by omega); simp only [List.length_cons] at h
  obtain ⟨b10, l, rfl⟩ := l.exists_of_length_succ (show l.length = 5 + 1 by omega); simp only [List.length_cons] at h
  obtain ⟨b11, l, rfl⟩ := l.exists_of_length_succ (show l.length = 4 + 1 by omega); simp only [List.length_cons] at h
  obtain ⟨b12, l, rfl⟩ := l.exists_of_length_succ (show l.length = 3 + 1 by omega); simp only [List.length_cons] at h
  obtain ⟨b13, l, rfl⟩ := l.exists_of_length_succ (show l.length = 2 + 1 by omega); simp only [List.length_cons] at h
  obtain ⟨b14, l, rfl⟩ := l.exists_of_length_succ (show l.length = 1 + 1 by omega); simp only [List.length_cons] at h
  obtain ⟨b15, l, rfl⟩ := l.exists_of_length_succ (show l.length = 0 + 1 by omega); simp only [List.length_cons] at h
  have : l = [] := List.eq_nil_of_length_eq_zero (by omega)
  subst this
  exact ⟨b0, b1, b2, b3, b4, b5, b6, b7, b8, b9, b10, b11, b12, b13, b14, b15, rfl⟩

/-! ### Linear-transform round cancellation -/

lemma linvstep_lstep (l : List Nat) (h : l.length = 16) : linvstep (lstep l) = l := by
  obtain ⟨b0, b1, b2, b3, b4, b5, b6, b7, b8, b9, b10, b11, b12, b13, b14, b15, rfl⟩ :=
    block16_cases l h
  simp only [lstep, linvstep, List.cons.injEq, and_true, true_and, Nat.xor_cancel_right]

lemma lstep_linvstep (l : List Nat) (h : l.length = 16) : lstep (linvstep l) = l := by
  obtain ⟨b0, b1, b2, b3, b4, b5, b6, b7, b8, b9, b10, b11, b12, b13, b14, b15, rfl⟩ :=
    block16_cases l h
  simp only [lstep, linvstep, List.cons.injEq, and_true, true_and, Nat.xor_cancel_right]

lemma lstep_length (l : List Nat) (h : l.length = 16) : (lstep l).length = 16 := by
  obtain ⟨b0, b1, b2, b3, b4, b5, b6, b7, b8, b9, b10, b11, b12, b13, b14, b15, rfl⟩ :=
    block16_cases l h
  rfl

lemma linvstep_length (l : List Nat) (h : l.length = 16) : (linvstep l).length = 16 := by
  obtain ⟨b0, b1, b2, b3, b4, b5, b6, b7, b8, b9, b10, b11, b12, b13, b14, b15, rfl⟩ :=
    block16_cases l h
  rfl

lemma lstep_iter_length (n : Nat) (l : List Nat) (h : l.length = 16) :
    (lstep^[n] l).length = 16 := by
  induction n generalizing l with
  | zero => simpa using h
  | succ n ih => rw [Function.iterate_succ_apply]; exact ih _ (lstep_length l h)

lemma linvstep_iter_length (n : Nat) (l : List Nat) (h : l.length = 16) :
    (linvstep^[n] l).length = 16 := by
  induction n generalizing l with
  | zero => simpa using h
  | succ n ih => rw [Function.iterate_succ_apply]; exact ih _ (linvstep_length l h)

lemma linvstep_iter_lstep_iter (n : Nat) (l : List Nat) (h : l.length = 16) :
    linvstep^[n] (lstep^[n] l) = l := by
  induction n generalizing l with
  | zero => rfl
  | succ n ih =>
    rw [Function.iterate_succ_apply, Function.iterate_succ_apply' (f := lstep),
      linvstep_lstep _ (lstep_iter_length n l h), ih l h]

lemma lstep_iter_linvstep_iter (n : Nat) (l : List Nat) (h : l.length = 16) :
    lstep^[n] (linvstep^[n] l) = l := by
  induction n generalizing l with
  | zero => rfl
  | succ n ih =>
    rw [Function.iterate_succ_apply, Function.iterate_succ_apply' (f := linvstep),
      lstep_linvstep _ (linvstep_iter_length n l h), ih l h]

lemma Linv_L (l : List Nat) (h : l.length = 16) : Linv (L l) = l :=
  linvstep_iter_lstep_iter 16 l h

lemma L_Linv (l : List Nat) (h : l.length = 16) : L (Linv l) = l :=
  lstep_iter_linvstep_iter 16 l h

lemma L_length (l : List Nat) (h : l.length = 16) : (L l).length = 16 :=
  lstep_iter_length 16 l h

lemma Linv_length (l : List Nat) (h : l.length = 16) : (Linv l).length = 16 :=
  linvstep_iter_length 16 l h

/-! ### Byte bounds -/

lemma xor_lt_256 {a b : Nat} (ha : a < 256) (hb : b < 256) : a ^^^ b < 256 :=
  Nat.bitwise_lt (n := 8) (by simpa using ha) (by simpa using hb)

lemma xt_lt : ∀ a < 256, xt a < 256 := by decide

lemma gfLoop_lt : ∀ (fuel a b c : Nat), a < 256 → c < 256 → gfLoop fuel a b c < 256 := by
  intro fuel
  induction fuel with
  | zero => intro a b c _ hc; exact hc
  | succ fuel ih =>
    intro a b c ha hc
    rw [gfLoop]
    split
    · exact hc
    · exact ih _ _ _ (xt_lt a ha) (by split <;> [exact xor_lt_256 hc ha; exact hc])

lemma gf_lt {a : Nat} (b : Nat) (ha : a < 256) : gf a b < 256 :=
  gfLoop_lt b a b 0 ha (by norm_num)

lemma PI_length : PI.length = 256 := rfl

lemma PIinv_length : PIinv.length = 256 := by rfl

lemma PI_getD_lt_aux : ∀ v < 256, PI.getD v 0 < 256 := by decide

lemma PI_getD_lt (v : Nat) : PI.getD v 0 < 256 := by
  by_cases h : v < 256
  · exact PI_getD_lt_aux v h
  · rw [List.getD_eq_default _ _ (by rw [PI_length]; omega)]; norm_num

lemma PIinv_getD_lt_aux : ∀ v < 256, PIinv.getD v 0 < 256 := by decide

lemma PIinv_getD_lt (v : Nat) : PIinv.getD v 0 < 256 := by
  by_cases h : v < 256
  · exact PIinv_getD_lt_aux v h
  · rw [List.getD_eq_default _ _ (by rw [PIinv_length]; omega)]; norm_num

/-- Inverse-table identities of the source tables, established once by
computation: `PIinv[PI[x]] = x` and `PI[PIinv[x]] = x` for every byte. -/
lemma PI_bijective : ∀ x < 256, PIinv.getD (PI.getD x 0) 0 = x ∧
    PI.getD (PIinv.getD x 0) 0 = x := by decide

/-! ### Block predicates -/

lemma strxor_length (a b : List Nat) : (strxor a b).length = min a.length b.length :=
  List.length_zipWith ..

lemma strxor_self_cancel : ∀ (a b : List Nat), a.length = b.length →
    strxor a (strxor a b) = b := by
  intro a
  induction a with
  | nil =>
    intro b h
    cases b with
    | nil => rfl
    | cons y ys => simp at h
  | cons x xs ih =>
    intro b h
    cases b with
    | nil => simp at h
    | cons y ys =>
      simp only [strxor, List.zipWith_cons_cons]
      rw [Nat.xor_cancel_left]
      exact congrArg _ (ih ys (by simpa using h))

lemma strxor_mem_lt : ∀ (a b : List Nat), (∀ v ∈ a, v < 256) → (∀ v ∈ b, v < 256) →
    ∀ v ∈ strxor a b, v < 256 := by
  intro a
  induction a with
  | nil => intro b _ _ v hv; simp [strxor] at hv
  | cons x xs ih =>
    intro b ha hb v hv
    cases b with
    | nil => simp [strxor] at hv
    | cons y ys =>
      simp only [strxor, List.zipWith_cons_cons, List.mem_cons] at hv
      rcases hv with rfl | hv
      · exact xor_lt_256 (ha x (by simp)) (hb y (by simp))
      · exact ih ys (fun v h => ha v (by simp [h])) (fun v h => hb v (by simp [h])) v hv

lemma strxor_isBlock {a b : List Nat} (ha : isBlock a) (hb : isBlock b) :
    isBlock (strxor a b) := by
  refine ⟨?_, strxor_mem_lt a b ha.2 hb.2⟩
  simp [strxor_length, ha.1, hb.1]

lemma mapPI_length (l : List Nat) : (l.map (fun v => PI.getD v 0)).length = l.length :=
  List.length_map ..

lemma mapPI_isBlock {l : List Nat} (h : l.length = 16) :
    isBlock (l.map (fun v => PI.getD v 0)) := by
  refine ⟨by rw [mapPI_length, h], ?_⟩
  intro v hv
  obtain ⟨w, _, rfl⟩ := List.mem_map.mp hv
  exact PI_getD_lt w

lemma lstep_isBlock {l : List Nat} (h : isBlock l) : isBlock (lstep l) := by
  obtain ⟨b0, b1, b2, b3, b4, b5, b6, b7, b8, b9, b10, b11, b12, b13, b14, b15, rfl⟩ :=
    block16_cases l h.1
  refine ⟨rfl, ?_⟩
  have hB0 : b0 < 256 := h.2 _ (by simp)
  have hB1 : b1 < 256 := h.2 _ (by simp)
  have hB2 : b2 < 256 := h.2 _ (by simp)
  have hB3 : b3 < 256 := h.2 _ (by simp)
  have hB4 : b4 < 256 := h.2 _ (by simp)
  have hB5 : b5 < 256 := h.2 _ (by simp)
  have hB6 : b6 < 256 := h.2 _ (by simp)
  have hB7 : b7 < 256 := h.2 _ (by simp)
  have hB8 : b8 < 256 := h.2 _ (by simp)
  have hB9 : b9 < 256 := h.2 _ (by simp)
  have hB10 : b10 < 256 := h.2 _ (by simp)
  have hB11 : b11 < 256 := h.2 _ (by simp)
  have hB12 : b12 < 256 := h.2 _ (by simp)
  have hB13 : b13 < 256 := h.2 _ (by simp)
  have hB14 : b14 < 256 := h.2 _ (by simp)
  have hB15 : b15 < 256 := h.2 _ (by simp)
  intro v hv
  simp only [lstep, List.mem_cons, List.not_mem_nil, or_false] at hv
  rcases hv with rfl | rfl | rfl | rfl | rfl | rfl | rfl | rfl |
    rfl | rfl | rfl | rfl | rfl | rfl | rfl | rfl
  · exact xor_lt_256 (xor_lt_256 (xor_lt_256 (xor_lt_256 (xor_lt_256 (xor_lt_256 (xor_lt_256 (xor_lt_256 (xor_lt_256 (xor_lt_256 (xor_lt_256 (xor_lt_256 (xor_lt_256 (xor_lt_256 (xor_lt_256 (hB15) (gf_lt _ hB14)) (gf_lt _ hB13)) (gf_lt _ hB12)) (gf_lt _ hB11)) (gf_lt _ hB10)) (gf_lt _ hB9)) (gf_lt _ hB8)) (gf_lt _ hB7)) (gf_lt _ hB6)) (gf_lt _ hB5)) (gf_lt _ hB4)) (gf_lt _ hB3)) (gf_lt _ hB2)) (gf_lt _ hB1)) (gf_lt _ hB0)
  · exact hB0
  · exact hB1
  · exact hB2
  · exact hB3
  · exact hB4
  · exact hB5
  · exact hB6
  · exact hB7
  · exact hB8
  · exact hB9
  · exact hB10
  · exact hB11
  · exact hB12
  · exact hB13
  · exact hB14

lemma linvstep_isBlock {l : List Nat} (h : isBlock l) : isBlock (linvstep l) := by
  obtain ⟨b0, b1, b2, b3, b4, b5, b6, b7, b8, b9, b10, b11, b12, b13, b14, b15, rfl⟩ :=
    block16_cases l h.1
  refine ⟨rfl, ?_⟩
  have hB0 : b0 < 256 := h.2 _ (by simp)
  have hB1 : b1 < 256 := h.2 _ (by simp)
  have hB2 : b2 < 256 := h.2 _ (by simp)
  have hB3 : b3 < 256 := h.2 _ (by simp)
  have hB4 : b4 < 256 := h.2 _ (by simp)
  have hB5 : b5 < 256 := h.2 _ (by simp)
  have hB6 : b6 < 256 := h.2 _ (by simp)
  have hB7 : b7 < 256 := h.2 _ (by simp)
  have hB8 : b8 < 256 := h.2 _ (by simp)
  have hB9 : b9 < 256 := h.2 _ (by simp)
  have hB10 : b10 < 256 := h.2 _ (by simp)
  have hB11 : b11 < 256 := h.2 _ (by simp)
  have hB12 : b12 < 256 := h.2 _ (by simp)
  have hB13 : b13 < 256 := h.2 _ (by simp)
  have hB14 : b14 < 256 := h.2 _ (by simp)
  have hB15 : b15 < 256 := h.2 _ (by simp)
  intro v hv
  simp only [linvstep, List.mem_cons, List.not_mem_nil, or_false] at hv
  rcases hv with rfl | rfl | rfl | rfl | rfl | rfl | rfl | rfl |
    rfl | rfl | rfl | rfl | rfl | rfl | rfl | rfl
  · exact hB1
  · exact hB2
  · exact hB3
  · exact hB4
  · exact hB5
  · exact hB6
  · exact hB7
  · exact hB8
  · exact hB9
  · exact hB10
  · exact hB11
  · exact hB12
  · exact hB13
  · exact hB14
  · exact hB15
  · exact xor_lt_256 (xor_lt_256 (xor_lt_256 (xor_lt_256 (xor_lt_256 (xor_lt_256 (xor_lt_256 (xor_lt_256 (xor_lt_256 (xor_lt_256 (xor_lt_256 (xor_lt_256 (xor_lt_256 (xor_lt_256 (xor_lt_256 (hB0) (gf_lt _ hB1)) (gf_lt _ hB2)) (gf_lt _ hB3)) (gf_lt _ hB4)) (gf_lt _ hB5)) (gf_lt _ hB6)) (gf_lt _ hB7)) (gf_lt _ hB8)) (gf_lt _ hB9)) (gf_lt _ hB10)) (gf_lt _ hB11)) (gf_lt _ hB12)) (gf_lt _ hB13)) (gf_lt _ hB14)) (gf_lt _ hB15)

lemma lstep_iter_isBlock (n : Nat) {l : List Nat} (h : isBlock l) : isBlock (lstep^[n] l) := by
  induction n generalizing l with
  | zero => simpa using h
  | succ n ih => rw [Function.iterate_succ_apply]; exact ih (lstep_isBlock h)

lemma linvstep_iter_isBlock (n : Nat) {l : List Nat} (h : isBlock l) :
    isBlock (linvstep^[n] l) := by
  induction n generalizing l with
  | zero => simpa using h
  | succ n ih => rw [Function.iterate_succ_apply]; exact ih (linvstep_isBlock h)

lemma L_isBlock {l : List Nat} (h : isBlock l) : isBlock (L l) := lstep_iter_isBlock 16 h

lemma Linv_isBlock {l : List Nat} (h : isBlock l) : isBlock (Linv l) :=
  linvstep_iter_isBlock 16 h

lemma lp_isBlock {l : List Nat} (h : l.length = 16) : isBlock (lp l) :=
  L_isBlock (mapPI_isBlock h)

/-! ### Key schedule structure -/

lemma feistelIter_fold (key : List Nat) (c : Nat) : ∀ s : Nat,
    feistelIter key (s + c) =
      (List.range c).foldl (fun kr j => kuzRound kr (s + j)) (feistelIter key s) := by
  induction c with
  | zero => simp
  | succ c ih =>
    intro s
    rw [List.range_succ, List.foldl_append, List.foldl_cons, List.foldl_nil,
      show s + (c + 1) = (s + c) + 1 by omega, feistelIter, ih s]

/-- The round-key list produced by the source constructor, written as the two
key halves followed by the states of the flat Feistel recurrence after rounds
8, 16, 24 and 32. -/
lemma kuzKS_eq (key : List Nat) : kuzKS key = [key.take 16, key.drop 16,
    (feistelIter key 8).1, (feistelIter key 8).2,
    (feistelIter key 16).1, (feistelIter key 16).2,
    (feistelIter key 24).1, (feistelIter key 24).2,
    (feistelIter key 32).1, (feistelIter key 32).2] := by
  have h0 := feistelIter_fold key 8 0
  have h8 := feistelIter_fold key 8 8
  have h16 := feistelIter_fold key 8 16
  have h24 := feistelIter_fold key 8 24
  rw [show feistelIter key 0 = (key.take 16, key.drop 16) from rfl] at h0
  simp only [List.range_succ, List.range_zero, List.foldl_append, List.foldl_cons,
    List.foldl_nil] at h0 h8 h16 h24
  norm_num at h0 h8 h16 h24
  simp only [kuzKS, List.range_succ, List.range_zero, List.foldl_append,
    List.foldl_cons, List.foldl_nil]
  norm_num
  rw [h24, h16, h8, h0]
  exact ⟨rfl, rfl, rfl, rfl, rfl, rfl, rfl, rfl⟩

lemma Cconst_getD (n : Nat) (h : n < 32) :
    Cconst.getD n [] = L ((List.replicate 16 0).set 15 (n + 1)) := by
  unfold Cconst
  rw [List.getD_eq_getElem _ _ (by simpa using h)]
  simp

lemma unitBlock_isBlock (n : Nat) (h : n < 32) :
    isBlock ((List.replicate 16 0).set 15 (n + 1)) := by
  refine ⟨by simp, ?_⟩
  intro v hv
  rcases List.mem_or_eq_of_mem_set hv with h' | rfl
  · rw [List.eq_of_mem_replicate h']; norm_num
  · omega

lemma Cconst_isBlock (n : Nat) (h : n < 32) : isBlock (Cconst.getD n []) := by
  rw [Cconst_getD n h]
  exact L_isBlock (unitBlock_isBlock n h)

lemma take16_isBlock {key : List Nat} (h32 : key.length = 32)
    (hb : ∀ v ∈ key, v < 256) : isBlock (key.take 16) :=
  ⟨by simp [h32], fun v hv => hb v (List.mem_of_mem_take hv)⟩

lemma drop16_isBlock {key : List Nat} (h32 : key.length = 32)
    (hb : ∀ v ∈ key, v < 256) : isBlock (key.drop 16) :=
  ⟨by simp [h32], fun v hv => hb v (List.mem_of_mem_drop hv)⟩

lemma feistelIter_isBlock {key : List Nat} (h32 : key.length = 32)
    (hb : ∀ v ∈ key, v < 256) :
    ∀ n, n ≤ 32 → isBlock (feistelIter key n).1 ∧ isBlock (feistelIter key n).2 := by
  intro n
  induction n with
  | zero =>
    intro _
    exact ⟨take16_isBlock h32 hb, drop16_isBlock h32 hb⟩
  | succ n ih =>
    intro hn
    obtain ⟨h1, h2⟩ := ih (by omega)
    have hc : isBlock (Cconst.getD n []) := Cconst_isBlock n (by omega)
    refine ⟨strxor_isBlock (lp_isBlock (strxor_isBlock hc h1).1) h2, h1⟩

/-! ### Encrypt and decrypt round structure -/

lemma kuzEncrypt_unfold (ks : List (List Nat)) (blk : List Nat) : kuzEncrypt ks blk =
    strxor (ks.getD 9 [])
      (lp (strxor (ks.getD 8 []) (lp (strxor (ks.getD 7 []) (lp (strxor (ks.getD 6 [])
        (lp (strxor (ks.getD 5 []) (lp (strxor (ks.getD 4 []) (lp (strxor (ks.getD 3 [])
        (lp (strxor (ks.getD 2 []) (lp (strxor (ks.getD 1 [])
        (lp (strxor (ks.getD 0 []) blk)))))))))))))))))) := by rfl

lemma kuzDecrypt_unfold (ks : List (List Nat)) (blk : List Nat) : kuzDecrypt ks blk =
    strxor (ks.getD 0 [])
      ((Linv (strxor (ks.getD 1 [])
        ((Linv (strxor (ks.getD 2 [])
        ((Linv (strxor (ks.getD 3 [])
        ((Linv (strxor (ks.getD 4 [])
        ((Linv (strxor (ks.getD 5 [])
        ((Linv (strxor (ks.getD 6 [])
        ((Linv (strxor (ks.getD 7 [])
        ((Linv (strxor (ks.getD 8 [])
        ((Linv (strxor (ks.getD 9 []) blk)).map (fun v => PIinv.getD v 0)))).map
          (fun v => PIinv.getD v 0)))).map (fun v => PIinv.getD v 0)))).map
          (fun v => PIinv.getD v 0)))).map (fun v => PIinv.getD v 0)))).map
          (fun v => PIinv.getD v 0)))).map (fun v => PIinv.getD v 0)))).map
          (fun v => PIinv.getD v 0)))).map (fun v => PIinv.getD v 0)) := by rfl

/-- One decrypt round undoes one encrypt round: XORing with the round key,
undiffusing with `Linv` and undoing the substitution recovers the block that
entered the matching `lp` round. -/
lemma step_cancel (k w : List Nat) (hk : k.length = 16) (hw : isBlock w) :
    (Linv (strxor k (strxor k (lp w)))).map (fun v => PIinv.getD v 0) = w := by
  have hlp : isBlock (lp w) := lp_isBlock hw.1
  rw [strxor_self_cancel k (lp w) (by rw [hk, hlp.1])]
  unfold lp
  rw [Linv_L _ (mapPI_isBlock hw.1).1, List.map_map]
  have hcomp : ∀ v ∈ w, ((fun v => PIinv.getD v 0) ∘ fun v => PI.getD v 0) v = id v := by
    intro v hv
    exact (PI_bijective v (hw.2 v hv)).1
  rw [List.map_congr_left hcomp, List.map_id]

/-- Cancellation over a whole chain of rounds: decrypt rounds keyed
`k :: hs.reverse` undo the encrypt rounds keyed `hs` after the initial round
on `w`, plus the final whitening XOR with `k`. -/
lemma chain_cancel : ∀ (hs : List (List Nat)), (∀ g ∈ hs, isBlock g) →
    ∀ (k w : List Nat), k.length = 16 → isBlock w →
    (k :: hs.reverse).foldl
        (fun b g => (Linv (strxor g b)).map (fun v => PIinv.getD v 0))
        (strxor k (hs.foldl (fun b g => lp (strxor g b)) (lp w))) = w := by
  intro hs
  induction hs with
  | nil =>
    intro _ k w hk hw
    simpa using step_cancel k w hk hw
  | cons h t ih =>
    intro hmem k w hk hw
    rw [show List.foldl (fun b g => lp (strxor g b)) (lp w) (h :: t)
        = List.foldl (fun b g => lp (strxor g b)) (lp (strxor h (lp w))) t from rfl]
    rw [List.reverse_cons, show k :: (t.reverse ++ [h]) = (k :: t.reverse) ++ [h] from rfl,
      List.foldl_append]
    rw [ih (fun g hg => hmem g (by simp [hg])) k (strxor h (lp w)) hk
      (strxor_isBlock (hmem h (by simp)) (lp_isBlock hw.1))]
    simp only [List.foldl_cons, List.foldl_nil]
    exact step_cancel h w (hmem h (by simp)).1 hw

/-- Round-trip of encrypt and decrypt over an explicit ten-entry round-key
list whose first nine entries are blocks and whose last entry is 16 bytes
long. -/
lemma kuz_roundtrip10 (g0 g1 g2 g3 g4 g5 g6 g7 g8 g9 blk : List Nat)
    (hg0 : isBlock g0) (hg1 : isBlock g1) (hg2 : isBlock g2) (hg3 : isBlock g3)
    (hg4 : isBlock g4) (hg5 : isBlock g5) (hg6 : isBlock g6) (hg7 : isBlock g7)
    (hg8 : isBlock g8) (hg9 : g9.length = 16) (hblk : isBlock blk) :
    kuzDecrypt [g0, g1, g2, g3, g4, g5, g6, g7, g8, g9]
      (kuzEncrypt [g0, g1, g2, g3, g4, g5, g6, g7, g8, g9] blk) = blk := by
  have hc := chain_cancel [g1, g2, g3, g4, g5, g6, g7, g8]
    (List.forall_mem_cons.mpr ⟨hg1, List.forall_mem_cons.mpr ⟨hg2,
      List.forall_mem_cons.mpr ⟨hg3, List.forall_mem_cons.mpr ⟨hg4,
      List.forall_mem_cons.mpr ⟨hg5, List.forall_mem_cons.mpr ⟨hg6,
      List.forall_mem_cons.mpr ⟨hg7, List.forall_mem_cons.mpr ⟨hg8,
      List.forall_mem_nil _⟩⟩⟩⟩⟩⟩⟩⟩)
    g9 (strxor g0 blk) hg9 (strxor_isBlock hg0 hblk)
  simp only [List.reverse_cons, List.reverse_nil, List.nil_append, List.cons_append,
    List.foldl_cons, List.foldl_nil] at hc
  rw [kuzEncrypt_unfold, kuzDecrypt_unfold]
  simp only [List.getD_cons_zero, List.getD_cons_succ]
  rw [hc]
  exact strxor_self_cancel _ _ (by rw [hg0.1, hblk.1])

/-! ### Concrete values from the specification's known-answer scenario -/

/-- The spec's master key
`8899aabbccddeeff0011223344556677fedcba98765432100123456789abcdef`. -/
def masterKey : List Nat :=
  [0x88, 0x99, 0xaa, 0xbb, 0xcc, 0xdd, 0xee, 0xff,
   0x00, 0x11, 0x22, 0x33, 0x44, 0x55, 0x66, 0x77,
   0xfe, 0xdc, 0xba, 0x98, 0x76, 0x54, 0x32, 0x10,
   0x01, 0x23, 0x45, 0x67, 0x89, 0xab, 0xcd, 0xef]

/-- The spec's plaintext block `1122334455667700ffeeddccbbaa9988`. -/
def plainBlock : List Nat :=
  [0x11, 0x22, 0x33, 0x44, 0x55, 0x66, 0x77, 0x00,
   0xff, 0xee, 0xdd, 0xcc, 0xbb, 0xaa, 0x99, 0x88]

/-- The spec's expected ciphertext `7f679d90bebc24305a468d42b9d4edcd`
(the standard GOST 34.12-2015 test vector). -/
def specCiphertext : List Nat :=
  [0x7f, 0x67, 0x9d, 0x90, 0xbe, 0xbc, 0x24, 0x30,
   0x5a, 0x46, 0x8d, 0x42, 0xb9, 0xd4, 0xed, 0xcd]

/-- The ciphertext this implementation actually produces for the spec's key
and plaintext, `b5bfe7521b7aa245fcc056f35aa46b66`. -/
def actualCiphertext : List Nat :=
  [0xb5, 0xbf, 0xe7, 0x52, 0x1b, 0x7a, 0xa2, 0x45,
   0xfc, 0xc0, 0x56, 0xf3, 0x5a, 0xa4, 0x6b, 0x66]

/-! ### Claim theorems -/

/-- Claim C2: for every 32-byte master key and every 16-byte block, a cipher
instance constructed from that key satisfies `decrypt (encrypt blk) = blk`. -/
theorem claim_c2_roundtrip (key blk : List Nat) (hk32 : key.length = 32)
    (hkb : ∀ v ∈ key, v < 256) (hb16 : blk.length = 16) (hbb : ∀ v ∈ blk, v < 256) :
    kuzDecrypt (kuzKS key) (kuzEncrypt (kuzKS key) blk) = blk := by
  obtain ⟨hf8a, hf8b⟩ := feistelIter_isBlock hk32 hkb 8 (by norm_num)
  obtain ⟨hf16a, hf16b⟩ := feistelIter_isBlock hk32 hkb 16 (by norm_num)
  obtain ⟨hf24a, hf24b⟩ := feistelIter_isBlock hk32 hkb 24 (by norm_num)
  obtain ⟨hf32a, hf32b⟩ := feistelIter_isBlock hk32 hkb 32 (by norm_num)
  rw [kuzKS_eq key]
  exact kuz_roundtrip10 _ _ _ _ _ _ _ _ _ _ blk
    (take16_isBlock hk32 hkb) (drop16_isBlock hk32 hkb)
    hf8a hf8b hf16a hf16b hf24a hf24b hf32a hf32b.1 ⟨hb16, hbb⟩

/-- Witness for C2 at the spec's key and plaintext block. -/
theorem claim_c2_roundtrip_witness : masterKey.length = 32 ∧
    (∀ v ∈ masterKey, v < 256) ∧ plainBlock.length = 16 ∧
    (∀ v ∈ plainBlock, v < 256) ∧
    kuzDecrypt (kuzKS masterKey) (kuzEncrypt (kuzKS masterKey) plainBlock) = plainBlock :=
  ⟨by decide, by decide, by decide, by decide,
    claim_c2_roundtrip masterKey plainBlock (by decide) (by decide) (by decide) (by decide)⟩

/-- Claim C4: for every 16-byte state, the 16-iteration inverse linear
transform undoes the 16-iteration linear transform and vice versa. -/
theorem claim_c4_linear_inverse (blk : List Nat) (h : blk.length = 16) :
    Linv (Lrounds 16 blk) = blk ∧ Lrounds 16 (Linv blk) = blk :=
  ⟨Linv_L blk h, L_Linv blk h⟩

/-- Witness for C4 at the spec's plaintext block. -/
theorem claim_c4_linear_inverse_witness : plainBlock.length = 16 ∧
    (Linv (Lrounds 16 plainBlock) = plainBlock ∧
      Lrounds 16 (Linv plainBlock) = plainBlock) :=
  ⟨by decide, claim_c4_linear_inverse plainBlock (by decide)⟩

/-- Claim C5: the substitution table is a bijection on byte values and
`PIinv` is its inverse: `PIinv[PI[x]] = x` and `PI[PIinv[x]] = x` for every
`x` in `0..255`. -/
theorem claim_c5_pi_bijection (x : Nat) (h : x < 256) :
    PIinv.getD (PI.getD x 0) 0 = x ∧ PI.getD (PIinv.getD x 0) 0 = x :=
  PI_bijective x h

/-- Witness for C5 at `x = 100`. -/
theorem claim_c5_pi_bijection_witness : (100 : Nat) < 256 ∧
    (PIinv.getD (PI.getD 100 0) 0 = 100 ∧ PI.getD (PIinv.getD 100 0) 0 = 100) :=
  ⟨by decide, claim_c5_pi_bijection 100 (by decide)⟩

/-- Claim C6: the key schedule of a 32-byte master key yields exactly ten
round keys: the two 16-byte key halves, then the `(left, right)` snapshots
of the Feistel recurrence after rounds 8, 16, 24 and 32.  The whole
derivation (`kuzKS`, and `feistelIter` on the right-hand side) is a plain
function of the master key alone, so it is deterministic and performs no
I/O by construction. -/
theorem claim_c6_key_schedule (key : List Nat) (h : key.length = 32) :
    (kuzKS key).length = 10 ∧
    kuzKS key = [key.take 16, key.drop 16,
      (feistelIter key 8).1, (feistelIter key 8).2,
      (feistelIter key 16).1, (feistelIter key 16).2,
      (feistelIter key 24).1, (feistelIter key 24).2,
      (feistelIter key 32).1, (feistelIter key 32).2] :=
  ⟨by rw [kuzKS_eq]; rfl, kuzKS_eq key⟩

/-- Witness for C6 at the spec's master key. -/
theorem claim_c6_key_schedule_witness : masterKey.length = 32 ∧
    ((kuzKS masterKey).length = 10 ∧
      kuzKS masterKey = [masterKey.take 16, masterKey.drop 16,
        (feistelIter masterKey 8).1, (feistelIter masterKey 8).2,
        (feistelIter masterKey 16).1, (feistelIter masterKey 16).2,
        (feistelIter masterKey 24).1, (feistelIter masterKey 24).2,
        (feistelIter masterKey 32).1, (feistelIter masterKey 32).2]) :=
  ⟨by decide, claim_c6_key_schedule masterKey (by decide)⟩

/-- Claim C7: for `r = 1..32` the round constant `C[r]` is the linear
transform with exactly 16 iterations applied to the block that is all zero
except its last byte set to `r`.  `Cconst` is a closed definition, so the
constants depend on no key material. -/
theorem claim_c7_round_constants (r : Nat) (h1 : 1 ≤ r) (h2 : r ≤ 32) :
    Cconst.getD (r - 1) [] = Lrounds 16 ((List.replicate 16 0).set 15 r) := by
  rw [Cconst_getD (r - 1) (by omega), show r - 1 + 1 = r by omega]
  rfl

/-- Witness for C7 at `r = 5`. -/
theorem claim_c7_round_constants_witness : (1 ≤ 5 ∧ 5 ≤ 32) ∧
    Cconst.getD (5 - 1) [] = Lrounds 16 ((List.replicate 16 0).set 15 5) :=
  ⟨by decide, claim_c7_round_constants 5 (by decide) (by decide)⟩

/-- Claim C8: the precomputed 256×256 table agrees with the algorithmic
field multiplier on every pair of byte indices, so a table lookup is
semantically identical to calling `gf` directly. -/
theorem claim_c8_gf_table (x y : Nat) (hx : x < 256) (hy : y < 256) :
    (GFtab.getD x []).getD y 0 = gf x y := by
  have h1 : GFtab.getD x [] = (List.range 256).map (fun y => gf x y) := by
    unfold GFtab
    rw [List.getD_eq_getElem _ _ (by simpa using hx)]
    simp
  rw [h1, List.getD_eq_getElem _ _ (by simpa using hy)]
  simp

/-- Witness for C8 at `x = 7`, `y = 200`. -/
theorem claim_c8_gf_table_witness : (7 : Nat) < 256 ∧ (200 : Nat) < 256 ∧
    (GFtab.getD 7 []).getD 200 0 = gf 7 200 :=
  ⟨by decide, by decide, claim_c8_gf_table 7 200 (by decide) (by decide)⟩


/-! ### Field algebra of `gf` -/

lemma shiftRight1_eq_div2 (x : Nat) : x >>> 1 = x / 2 := by
  rw [Nat.shiftRight_succ, Nat.shiftRight_zero]

lemma xor_left_comm (a b c : Nat) : a ^^^ (b ^^^ c) = b ^^^ (a ^^^ c) := by
  rw [← Nat.xor_assoc, Nat.xor_comm a b, Nat.xor_assoc]

lemma gfLoop_b_zero : ∀ (f a c : Nat), gfLoop f a 0 c = c := by
  intro f a c
  cases f <;> simp [gfLoop]

lemma gfLoop_acc : ∀ (f a b c : Nat), gfLoop f a b c = c ^^^ gfLoop f a b 0 := by
  intro f
  induction f with
  | zero => intro a b c; simp [gfLoop]
  | succ f ih =>
    intro a b c
    by_cases hb : b = 0
    · subst hb; simp [gfLoop]
    · rw [gfLoop, gfLoop]
      simp only [hb, if_false]
      rw [ih (xt a) (b >>> 1) (if b &&& 1 ≠ 0 then c ^^^ a else c),
        ih (xt a) (b >>> 1) (if b &&& 1 ≠ 0 then 0 ^^^ a else 0)]
      rcases Nat.mod_two_eq_zero_or_one b with h2 | h2 <;>
        simp [Nat.and_one_is_mod, h2, Nat.zero_xor, Nat.xor_assoc]

lemma gfLoop_fuel : ∀ (b f g : Nat), b ≤ f → b ≤ g → ∀ (a c : Nat),
    gfLoop f a b c = gfLoop g a b c := by
  intro b
  induction b using Nat.strong_induction_on with
  | _ b ih =>
    intro f g hf hg a c
    by_cases h0 : b = 0
    · subst h0; rw [gfLoop_b_zero, gfLoop_b_zero]
    · obtain ⟨f', rfl⟩ : ∃ f', f = f' + 1 := ⟨f - 1, by omega⟩
      obtain ⟨g', rfl⟩ : ∃ g', g = g' + 1 := ⟨g - 1, by omega⟩
      rw [gfLoop, gfLoop]
      simp only [h0, if_false]
      have hlt : b >>> 1 < b := by rw [shiftRight1_eq_div2]; omega
      exact ih (b >>> 1) hlt f' g'
        (by rw [shiftRight1_eq_div2]; omega) (by rw [shiftRight1_eq_div2]; omega) _ _

lemma gf_b_zero (a : Nat) : gf a 0 = 0 := rfl

lemma gf_unfold (a b : Nat) :
    gf a b = (if b &&& 1 ≠ 0 then a else 0) ^^^ gf (xt a) (b >>> 1) := by
  by_cases h0 : b = 0
  · subst h0
    simp [gf, gfLoop_b_zero]
  · obtain ⟨b', rfl⟩ : ∃ b', b = b' + 1 := ⟨b - 1, by omega⟩
    show gfLoop (b' + 1) a (b' + 1) 0 = _
    rw [gfLoop]
    simp only [h0, if_false]
    rw [gfLoop_acc]
    have hle : (b' + 1) >>> 1 ≤ b' := by rw [shiftRight1_eq_div2]; omega
    rw [gfLoop_fuel ((b' + 1) >>> 1) b' ((b' + 1) >>> 1) hle (le_refl _)]
    show _ = _ ^^^ gfLoop ((b' + 1) >>> 1) (xt a) ((b' + 1) >>> 1) 0
    by_cases hbit : (b' + 1) &&& 1 ≠ 0 <;> simp [hbit, Nat.zero_xor]

lemma gf_b_one (a : Nat) : gf a 1 = a := by
  rw [gf_unfold, show (1 : Nat) >>> 1 = 0 from rfl, gf_b_zero, Nat.xor_zero]
  norm_num

lemma xt_zero : xt 0 = 0 := by decide

lemma gf_zero_left : ∀ (b : Nat), gf 0 b = 0 := by
  intro b
  induction b using Nat.strong_induction_on with
  | _ b ih =>
    by_cases h0 : b = 0
    · subst h0; rfl
    · rw [gf_unfold, xt_zero, ih (b >>> 1) (by rw [shiftRight1_eq_div2]; omega)]
      by_cases hbit : b &&& 1 ≠ 0 <;> simp [hbit]

lemma xor_shiftLeft1 (x y : Nat) : (x ^^^ y) <<< 1 = x <<< 1 ^^^ y <<< 1 := by
  apply Nat.eq_of_testBit_eq
  intro i
  simp [Nat.testBit_shiftLeft, Nat.testBit_xor, Bool.and_xor_distrib_left]

lemma and128_eq (z : Nat) : z &&& 128 = if z.testBit 7 then 128 else 0 := by
  have h := Nat.and_two_pow z 7
  norm_num at h
  rw [h]
  cases z.testBit 7 <;> simp

lemma xt_linear (x y : Nat) : xt (x ^^^ y) = xt x ^^^ xt y := by
  unfold xt
  rw [and128_eq x, and128_eq y, and128_eq (x ^^^ y), Nat.testBit_xor]
  cases hx : x.testBit 7 <;> cases hy : y.testBit 7 <;>
    simp [xor_shiftLeft1, Nat.xor_assoc, Nat.xor_comm, xor_left_comm]

lemma xt_gf_comm : ∀ (b a : Nat), gf (xt a) b = xt (gf a b) := by
  intro b
  induction b using Nat.strong_induction_on with
  | _ b ih =>
    intro a
    by_cases h0 : b = 0
    · subst h0; rw [gf_b_zero, gf_b_zero, xt_zero]
    · rw [gf_unfold (xt a) b, gf_unfold a b, xt_linear,
        ← ih (b >>> 1) (by rw [shiftRight1_eq_div2]; omega) (xt a)]
      rcases Nat.mod_two_eq_zero_or_one b with h2 | h2 <;>
        simp [Nat.and_one_is_mod, h2, xt_zero]

lemma gf_xor_right : ∀ (x y a : Nat), gf a (x ^^^ y) = gf a x ^^^ gf a y := by
  intro x
  induction x using Nat.strong_induction_on with
  | _ x ih =>
    intro y a
    by_cases h0 : x = 0
    · subst h0; simp [gf_b_zero, Nat.zero_xor]
    · rw [gf_unfold a (x ^^^ y), gf_unfold a x, gf_unfold a y]
      have hsr : (x ^^^ y) >>> 1 = (x >>> 1) ^^^ (y >>> 1) := by
        simp [shiftRight1_eq_div2, Nat.xor_div_two]
      rw [hsr, ih (x >>> 1) (by rw [shiftRight1_eq_div2]; omega) (y >>> 1) (xt a),
        Nat.and_xor_distrib_right]
      have hx1 : x &&& 1 = 0 ∨ x &&& 1 = 1 := by
        rw [Nat.and_one_is_mod]; omega
      have hy1 : y &&& 1 = 0 ∨ y &&& 1 = 1 := by
        rw [Nat.and_one_is_mod]; omega
      rcases hx1 with hx1 | hx1 <;> rcases hy1 with hy1 | hy1 <;>
        simp [hx1, hy1, Nat.xor_assoc, Nat.xor_comm, xor_left_comm,
          Nat.xor_self, Nat.xor_zero, Nat.zero_xor, Nat.xor_cancel_left]

lemma gf_xor_left : ∀ (b x y : Nat), gf (x ^^^ y) b = gf x b ^^^ gf y b := by
  intro b
  induction b using Nat.strong_induction_on with
  | _ b ih =>
    intro x y
    by_cases h0 : b = 0
    · subst h0; simp [gf_b_zero]
    · rw [gf_unfold (x ^^^ y) b, gf_unfold x b, gf_unfold y b, xt_linear,
        ih (b >>> 1) (by rw [shiftRight1_eq_div2]; omega) (xt x) (xt y)]
      rcases Nat.mod_two_eq_zero_or_one b with h2 | h2 <;>
        simp [Nat.and_one_is_mod, h2, Nat.xor_assoc, Nat.xor_comm, xor_left_comm]

lemma two_mul_xor_one (k : Nat) : 2 * k ^^^ 1 = 2 * k + 1 := by
  apply Nat.eq_of_testBit_eq
  intro i
  cases i with
  | zero =>
    simp [Nat.testBit_xor, Nat.mul_mod_right, Nat.mul_add_mod]
  | succ j =>
    rw [Nat.testBit_xor]
    have h1 : Nat.testBit 1 (j + 1) = false :=
      Nat.testBit_lt_two_pow (Nat.one_lt_two_pow (by omega))
    rw [h1, Bool.xor_false]
    rw [Nat.testBit_to_div_mod, Nat.testBit_to_div_mod]
    have : 2 * k / 2 ^ (j + 1) = (2 * k + 1) / 2 ^ (j + 1) := by
      rw [Nat.pow_succ, Nat.mul_comm (2 ^ j) 2, ← Nat.div_div_eq_div_mul,
        ← Nat.div_div_eq_div_mul]
      congr 1
      omega
    rw [this]

lemma bit_split (a : Nat) : 2 * (a >>> 1) ^^^ (a &&& 1) = a := by
  rw [shiftRight1_eq_div2, Nat.and_one_is_mod]
  rcases Nat.mod_two_eq_zero_or_one a with h | h <;> rw [h]
  · rw [Nat.xor_zero]; omega
  · rw [two_mul_xor_one]; omega

lemma gf_one_left : ∀ b < 256, gf 1 b = b := by decide

lemma gf_double_right (b k : Nat) : gf b (2 * k) = gf (xt b) k := by
  rw [gf_unfold]
  have h1 : 2 * k &&& 1 = 0 := by rw [Nat.and_one_is_mod]; omega
  have h2 : (2 * k) >>> 1 = k := by rw [shiftRight1_eq_div2]; omega
  rw [h1, h2]
  simp

lemma two_mul_eq_xt {x : Nat} (h : x < 128) : 2 * x = xt x := by
  unfold xt
  have hb : x.testBit 7 = false := Nat.testBit_lt_two_pow (by norm_num; omega)
  rw [and128_eq, hb]
  simp [Nat.shiftLeft_eq, Nat.mul_comm]

lemma gf_comm_all : ∀ a, a < 256 → ∀ b, b < 256 → gf a b = gf b a := by
  intro a
  induction a using Nat.strong_induction_on with
  | _ a ih =>
    intro ha b hb
    by_cases h0 : a = 0
    · subst h0; rw [gf_zero_left, gf_b_zero]
    · rw [← bit_split a, gf_xor_left, gf_xor_right]
      have hhalf : a >>> 1 < 128 := by rw [shiftRight1_eq_div2]; omega
      refine congrArg₂ (· ^^^ ·) ?_ ?_
      · rw [two_mul_eq_xt hhalf, xt_gf_comm, ← two_mul_eq_xt hhalf, gf_double_right,
          xt_gf_comm]
        exact congrArg xt (ih (a >>> 1) (by rw [shiftRight1_eq_div2]; omega)
          (by rw [shiftRight1_eq_div2]; omega) b hb)
      · have h1 : a &&& 1 = 0 ∨ a &&& 1 = 1 := by rw [Nat.and_one_is_mod]; omega
        rcases h1 with h1 | h1 <;> rw [h1]
        · rw [gf_zero_left, gf_b_zero]
        · rw [gf_one_left b hb, gf_b_one]


/-- Claim C9: the field multiplier is commutative on bytes, and satisfies
`gf a 0 = 0` and `gf a 1 = a`. -/
theorem claim_c9_gf_algebra (a b : Nat) (ha : a < 256) (hb : b < 256) :
    gf a b = gf b a ∧ gf a 0 = 0 ∧ gf a 1 = a :=
  ⟨gf_comm_all a ha b hb, gf_b_zero a, gf_b_one a⟩

/-- Witness for C9 at `a = 148`, `b = 23`. -/
theorem claim_c9_gf_algebra_witness : (148 : Nat) < 256 ∧ (23 : Nat) < 256 ∧
    (gf 148 23 = gf 23 148 ∧ gf 148 0 = 0 ∧ gf 148 1 = 148) :=
  ⟨by decide, by decide, claim_c9_gf_algebra 148 23 (by decide) (by decide)⟩


/-! ### Known-answer computations (C1) -/

set_option maxHeartbeats 4000000 in
/-- Counterexample to claim C1: with this repository's substitution table,
encrypting the spec's plaintext under the spec's master key does not produce
the standard ciphertext `7f679d90bebc24305a468d42b9d4edcd` claimed by the
spec. -/
theorem claim_c1_kat_counterexample :
    kuzEncrypt (kuzKS masterKey) plainBlock ≠ specCiphertext := by decide

set_option maxHeartbeats 4000000 in
/-- Amended claim C1: for the spec's master key and plaintext block, encrypt
returns `b5bfe7521b7aa245fcc056f35aa46b66`, and decrypt applied to that
ciphertext returns the original plaintext block. -/
theorem claim_c1_kat_amended :
    kuzEncrypt (kuzKS masterKey) plainBlock = actualCiphertext ∧
    kuzDecrypt (kuzKS masterKey) actualCiphertext = plainBlock := by decide

/-! ### Instance state (C10) -/

/-- Instance state of `GOST3412Kuznechik`: after `__init__` the only
instance attribute is the round-key list `self.ks`. -/
structure KuzInstance where
  ks : List (List Nat)

/-- State-passing translation of `GOST3412Kuznechik.encrypt`.  The method
reads `self.ks` and the module tables but assigns no attribute and no
module global — it only rebinds its local `blk` to freshly built sequences
(`bytearray(blk)`, `strxor` results, the list comprehension in `lp`) — so
the translation returns the instance unchanged beside the ciphertext.  The
module tables (`GFtab`, `PIinv`, `Cconst`, `LC`) are Lean constants, which
makes their immutability intrinsic; the caller's block is consumed by
value, matching the source's initial `bytearray(blk)` copy. -/
def encryptSt (inst : KuzInstance) (blk : List Nat) : List Nat × KuzInstance :=
  (kuzEncrypt inst.ks blk, inst)

/-- State-passing translation of `GOST3412Kuznechik.decrypt`; the same
reasoning as for `encryptSt` applies. -/
def decryptSt (inst : KuzInstance) (blk : List Nat) : List Nat × KuzInstance :=
  (kuzDecrypt inst.ks blk, inst)

/-- Claim C10: encrypt and decrypt leave the instance (and in particular its
round-key list) unchanged, and an instance used for one call serves later
calls with identical results, so one instance can serve arbitrarily many
blocks. -/
theorem claim_c10_state_frame (inst : KuzInstance) (b1 b2 : List Nat) :
    (encryptSt inst b1).2 = inst ∧ (decryptSt inst b1).2 = inst ∧
    (encryptSt (encryptSt inst b1).2 b2).1 = (encryptSt inst b2).1 ∧
    (decryptSt (decryptSt inst b1).2 b2).1 = (decryptSt inst b2).1 :=
  ⟨rfl, rfl, rfl, rfl⟩


/-! ### Length behaviour without validation (C3) -/

lemma strxor_take_right : ∀ (a b : List Nat) (n : Nat), a.length ≤ n →
    strxor a (b.take n) = strxor a b := by
  intro a
  induction a with
  | nil => intro b n _; rfl
  | cons x xs ih =>
    intro b n h
    cases b with
    | nil => simp [strxor]
    | cons y ys =>
      cases n with
      | zero => simp at h
      | succ n =>
        show (x ^^^ y) :: strxor xs (ys.take n) = (x ^^^ y) :: strxor xs ys
        exact congrArg _ (ih ys n (by simpa using h))

lemma strxor_take_left : ∀ (a b : List Nat) (n : Nat), b.length ≤ n →
    strxor (a.take n) b = strxor a b := by
  intro a
  induction a with
  | nil => intro b n _; simp [strxor]
  | cons x xs ih =>
    intro b n h
    cases b with
    | nil => simp [strxor]
    | cons y ys =>
      cases n with
      | zero => simp at h
      | succ n =>
        show (x ^^^ y) :: strxor (xs.take n) ys = (x ^^^ y) :: strxor xs ys
        exact congrArg _ (ih ys n (by simpa using h))

lemma take32_take16 {key : List Nat} : (key.take 32).take 16 = key.take 16 := by
  rw [List.take_take]
  norm_num

lemma take32_drop16 {key : List Nat} : (key.take 32).drop 16 = (key.drop 16).take 16 := by
  rw [List.drop_take]

lemma feistelIter_trunc {key : List Nat} (h : key.length = 33) :
    ∀ n, feistelIter key (n + 1) = feistelIter (key.take 32) (n + 1) := by
  intro n
  induction n with
  | zero =>
    show (strxor (lp (strxor (Cconst.getD 0 []) (key.take 16))) (key.drop 16),
        key.take 16) =
      (strxor (lp (strxor (Cconst.getD 0 []) ((key.take 32).take 16)))
        ((key.take 32).drop 16), (key.take 32).take 16)
    rw [take32_take16, take32_drop16]
    refine congrArg₂ Prod.mk ?_ rfl
    have hlen : (lp (strxor (Cconst.getD 0 []) (key.take 16))).length = 16 := by
      refine (lp_isBlock ?_).1
      rw [strxor_length, (Cconst_isBlock 0 (by norm_num)).1, List.length_take]
      omega
    exact (strxor_take_right (lp (strxor (Cconst.getD 0 []) (key.take 16)))
      (key.drop 16) 16 (by omega)).symm
  | succ n ih =>
    show kuzRound (feistelIter key (n + 1)) (n + 1) =
      kuzRound (feistelIter (key.take 32) (n + 1)) (n + 1)
    rw [ih]

lemma kuzEncrypt_trunc10 (g0 g1 g2 g3 g4 g5 g6 g7 g8 g9 blk : List Nat)
    (h0 : g0.length = 16) (hb : 16 ≤ blk.length) :
    kuzEncrypt [g0, g1, g2, g3, g4, g5, g6, g7, g8, g9] blk =
    kuzEncrypt [g0, g1.take 16, g2, g3, g4, g5, g6, g7, g8, g9] (blk.take 16) := by
  rw [kuzEncrypt_unfold, kuzEncrypt_unfold]
  simp only [List.getD_cons_zero, List.getD_cons_succ]
  rw [strxor_take_right g0 blk 16 (by omega)]
  have hz : (lp (strxor g0 blk)).length = 16 := by
    refine (lp_isBlock ?_).1
    rw [strxor_length]
    omega
  rw [strxor_take_left g1 (lp (strxor g0 blk)) 16 (by omega)]

/-- A 33-byte key: the spec's master key with one extra byte appended. -/
def key33 : List Nat := masterKey ++ [0xaa]

/-- A 17-byte block: the spec's plaintext block with one extra byte
appended. -/
def block17 : List Nat := plainBlock ++ [0xbb]

set_option maxHeartbeats 4000000 in
/-- Counterexample to claim C3: the source performs no length validation.
Constructing an instance from a 33-byte key does not fail with
InvalidKeyLength — it yields ten round keys (the second keeps the extra
33rd byte, all others are 16 bytes) — and encrypt with a 17-byte block does
not fail with InvalidBlockLength: it silently truncates, returning exactly
the ciphertext of the 16-byte prefix under the 32-byte prefix key
(`actualCiphertext`); decrypt likewise accepts the 17-byte block and
returns a 16-byte result. -/
theorem claim_c3_no_length_error_counterexample :
    (kuzKS key33).map List.length = [16, 17, 16, 16, 16, 16, 16, 16, 16, 16] ∧
    kuzEncrypt (kuzKS key33) block17 = actualCiphertext ∧
    (kuzDecrypt (kuzKS key33) block17).length = 16 := by decide

/-- Amended claim C3: the code performs no length validation.  For every
33-byte key, construction succeeds and yields ten round keys, and for every
17-byte block, encrypt succeeds and silently truncates: it returns the
ciphertext of the block's 16-byte prefix under the key's 32-byte prefix. -/
theorem claim_c3_truncation_amended (key blk : List Nat) (hk : key.length = 33)
    (hb : blk.length = 17) :
    (kuzKS key).length = 10 ∧
    kuzEncrypt (kuzKS key) blk = kuzEncrypt (kuzKS (key.take 32)) (blk.take 16) := by
  refine ⟨by rw [kuzKS_eq]; rfl, ?_⟩
  have h8 := feistelIter_trunc hk 7
  have h16 := feistelIter_trunc hk 15
  have h24 := feistelIter_trunc hk 23
  have h32 := feistelIter_trunc hk 31
  norm_num at h8 h16 h24 h32
  rw [kuzKS_eq key, kuzKS_eq (key.take 32), take32_take16, take32_drop16,
    ← h8, ← h16, ← h24, ← h32]
  exact kuzEncrypt_trunc10 (key.take 16) (key.drop 16) _ _ _ _ _ _ _ _ blk
    (by rw [List.length_take]; omega) (by omega)

/-- Witness for the amended C3 at the concrete 33-byte key and 17-byte
block. -/
theorem claim_c3_truncation_amended_witness : key33.length = 33 ∧ block17.length = 17 ∧
    ((kuzKS key33).length = 10 ∧
      kuzEncrypt (kuzKS key33) block17 =
        kuzEncrypt (kuzKS (key33.take 32)) (block17.take 16)) :=
  ⟨by decide, by decide, claim_c3_truncation_amended key33 block17 (by decide) (by decide)⟩

end Gost3412
